import Mathlib

set_option linter.unusedVariables false

/-!
Verification of `src/lj_mcode_spool.c`: a fixed-capacity, block-granular
(64 KiB) first-fit allocator over a static backing buffer, with an occupancy
map of `STATIC_POOL_MAX_ENTRIES` int flags.

Shallow embedding conventions:
* machine addresses and sizes are `Nat`; the casts to `uintptr_t` in the C
  source are modelled with explicit `% 2 ^ 64` where the source performs
  them (pointer arithmetic inside the valid backing object cannot wrap, and
  the configuration carries the hypothesis that the object fits in the
  64-bit address space);
* the occupancy map `_static_alloc_map` is a `List Nat` of length
  `STATIC_POOL_MAX_ENTRIES`;
* `mprotect` and `madvise` are external: the outcome of the single
  `mprotect` call inside `lj_alloc_from_static_pool` is a `Bool` parameter;
  `madvise` failure is only logged by the source and has no semantic
  effect, so it is omitted, as is all logging (`LOGE`/`LOGW`) and the
  `used` byte counter, which only feeds log lines;
* `__android_log_assert` aborts the process, so the `assert0` checks are
  modelled as a distinguished `assertFail` outcome;
* the mutex serializes calls; each call is modelled as one atomic state
  transformation on the map.
-/

namespace StaticPool

/-- Block size: `STATIC_POOL_MIN_BLOCK_SIZE` = `STATIC_POOL_MIN_BLOCK_SIZE_KB * 1024` = 64 KiB. -/
def BLOCK : Nat := 65536

/-- Compile-time configuration and placement of the pool.
`poolKB` is `LJ_ANDROID_MCODE_STATIC_POOL_KB`; `base` is the address of
`_static_alloc_pool`.  `kb_ok` is the `_Static_assert` at line 70 of the
source; `base_ok` states that the backing array (of
`STATIC_POOL_SIZE + STATIC_POOL_MIN_BLOCK_SIZE` bytes) is a valid object in
the 64-bit address space. -/
structure PoolCfg where
  poolKB : Nat
  base : Nat
  kb_ok : 64 ≤ poolKB
  base_ok : base + (poolKB * 1024 + BLOCK) ≤ 2 ^ 64

/-- Pool capacity: `STATIC_POOL_SIZE = LJ_ANDROID_MCODE_STATIC_POOL_KB * 1024`. -/
def poolSize (c : PoolCfg) : Nat := c.poolKB * 1024

/-- Map entry count: `STATIC_POOL_MAX_ENTRIES = LJ_ANDROID_MCODE_STATIC_POOL_KB / STATIC_POOL_MIN_BLOCK_SIZE_KB`. -/
def maxEntries (c : PoolCfg) : Nat := c.poolKB / 64

/-- Aligned base: `aligned_pool_start = (void*)(((uintptr_t)_static_alloc_pool + STATIC_POOL_MIN_BLOCK_SIZE - 1) & ~(STATIC_POOL_MIN_BLOCK_SIZE - 1))`.
On `uintptr_t`, `~(STATIC_POOL_MIN_BLOCK_SIZE - 1)` is `2 ^ 64 - BLOCK`. -/
def alignedBase (c : PoolCfg) : Nat :=
  ((c.base + (BLOCK - 1)) % 2 ^ 64) &&& (2 ^ 64 - BLOCK)

/-- Block rounding: `int size_blocks = size / STATIC_POOL_MIN_BLOCK_SIZE;` followed by
`if((size & STATIC_POOL_BLOCK_SIZE_MASK) != 0) size_blocks++;`
(the identical computation opens both `lj_alloc_from_static_pool` and
`lj_release_to_static_pool`). -/
def sizeBlocks (size : Nat) : Nat :=
  if size &&& (BLOCK - 1) != 0 then size / BLOCK + 1 else size / BLOCK

/-- The `for(mark = ...)` loops writing `_static_alloc_map[mark] = v` for
`mark` in `[start, start+b)` (value 1 in acquire, 0 in release). -/
def markRange : List Nat → Nat → Nat → Nat → List Nat
  | m, _, 0, _ => m
  | m, start, b + 1, v => markRange (m.set start v) (start + 1) b v

/-- The inner `for(end = start; end < start + size_blocks; end++)` scan
computing `all_ok`: all map entries in `[start, start+b)` are zero. -/
def runFree (m : List Nat) (start b : Nat) : Bool :=
  match b with
  | 0 => true
  | b + 1 => (m.getD start 0 == 0) && runFree m (start + 1) b

/-- Candidate test at one `start`: the outer `if(_static_alloc_map[start] == 0)`
guard together with the inner `all_ok` scan. -/
def goodStart (m : List Nat) (b s : Nat) : Bool :=
  (m.getD s 0 == 0) && runFree m s b

/-- The outer scan `for(start = 0; start <= STATIC_POOL_MAX_ENTRIES - size_blocks; start++)`,
stopping at the first fitting run.  `fuel` counts the remaining candidate
start indices. -/
def findFitAux (m : List Nat) (b : Nat) : Nat → Nat → Option Nat
  | _, 0 => none
  | start, fuel + 1 =>
    if goodStart m b start then some start
    else findFitAux m b (start + 1) fuel

/-- First-fit search over start indices `0 ≤ start ≤ N - b` (int arithmetic:
when `b > N` the loop body never executes, hence `N + 1 - b` candidates as
truncated `Nat` subtraction). -/
def findFit (m : List Nat) (N b : Nat) : Option Nat :=
  findFitAux m b 0 (N + 1 - b)

/-- Outcome of `lj_alloc_from_static_pool`: a non-NULL pointer with the new
map, NULL with the (unchanged) map, or an `assert0` abort. -/
inductive AcqResult where
  | ok (p : Nat) (m : List Nat)
  | fail (m : List Nat)
  | assertFail
  deriving DecidableEq

/-- Outcome of `lj_release_to_static_pool`: return 0 with the new map,
nonzero return (1) with the unchanged map, or an `assert0` abort. -/
inductive RelResult where
  | ok (m : List Nat)
  | err (m : List Nat)
  | assertFail
  deriving DecidableEq

/-- Model of `void* lj_alloc_from_static_pool(unsigned int size, int prot)`
(lines 83-146).  `mprotectOk` is the outcome of the `mprotect` call at
line 117 on the selected run.  The `assert0` at line 111 is the condition
`aligned_pool_start >= _static_alloc_pool && _static_alloc_pool <= _static_alloc_pool + sizeof(...)`. -/
def lj_alloc_from_static_pool (c : PoolCfg) (size : Nat) (prot : Int)
    (mprotectOk : Bool) (m : List Nat) : AcqResult :=
  if sizeBlocks size = 0 then .fail m
  else
    match findFit m (maxEntries c) (sizeBlocks size) with
    | none => .fail m
    | some start =>
      if c.base ≤ alignedBase c ∧ c.base ≤ c.base + (poolSize c + BLOCK) then
        if mprotectOk then
          .ok (alignedBase c + start * BLOCK) (markRange m start (sizeBlocks size) 1)
        else .fail m
      else .assertFail

/-- Model of `int lj_release_to_static_pool(void* p, unsigned int size)`
(lines 149-202).  The `assert0`s at lines 163, 170, 173 and 174 are the
`assertFail` branches; the double-release check at line 182 only logs. -/
def lj_release_to_static_pool (c : PoolCfg) (p : Nat) (size : Nat)
    (m : List Nat) : RelResult :=
  if sizeBlocks size = 0 then .err m
  else
    if c.base ≤ alignedBase c ∧ c.base ≤ c.base + (poolSize c + BLOCK) then
      if p < alignedBase c ∨ alignedBase c + poolSize c < p + sizeBlocks size * BLOCK then
        .err m
      else
        if p &&& (BLOCK - 1) = 0 then
          if (p - alignedBase c) / BLOCK < maxEntries c then
            if (p - alignedBase c) / BLOCK + sizeBlocks size ≤ maxEntries c then
              .ok (markRange m ((p - alignedBase c) / BLOCK) (sizeBlocks size) 0)
            else .assertFail
          else .assertFail
        else .assertFail
    else .assertFail

/-- A run of `b` contiguous free blocks at start index `s` in a map with
`N` entries (the specification-side predicate for first-fit claims). -/
def fitsAt (m : List Nat) (N b s : Nat) : Prop :=
  s + b ≤ N ∧ ∀ i, s ≤ i → i < s + b → m.getD i 0 = 0

/-! ### Arithmetic facts about the alignment mask and size rounding -/

lemma land_mask_eq {x : Nat} (hx : x < 2 ^ 64) :
    x &&& (2 ^ 64 - BLOCK) = x / BLOCK * BLOCK := by
  have hmask : (2 ^ 64 - BLOCK : Nat) = (2 ^ 48 - 1) <<< 16 := by
    rw [Nat.shiftLeft_eq]; decide
  have hdiv : x / BLOCK * BLOCK = (x >>> 16) <<< 16 := by
    rw [Nat.shiftLeft_eq, Nat.shiftRight_eq_div_pow]; norm_num [BLOCK]
  apply Nat.eq_of_testBit_eq
  intro i
  rw [hmask, hdiv, Nat.testBit_land, Nat.testBit_shiftLeft, Nat.testBit_shiftLeft,
    Nat.testBit_shiftRight, Nat.testBit_two_pow_sub_one]
  by_cases h16 : 16 ≤ i
  · have h1 : 16 + (i - 16) = i := by omega
    rw [h1]
    by_cases h64 : i < 64
    · have h2 : i - 16 < 48 := by omega
      simp [h16, h2]
    · have h2 : x.testBit i = false :=
        Nat.testBit_lt_two_pow
          (lt_of_lt_of_le hx (Nat.pow_le_pow_right (by norm_num) (by omega)))
      simp [h2]
  · have h1 : ¬ (i ≥ 16) := h16
    simp [h1]

lemma alignedBase_eq (c : PoolCfg) :
    alignedBase c = (c.base + (BLOCK - 1)) / BLOCK * BLOCK := by
  have hb := c.base_ok
  have h1 : c.base + (BLOCK - 1) < 2 ^ 64 := by unfold BLOCK at *; omega
  unfold alignedBase
  rw [Nat.mod_eq_of_lt h1, land_mask_eq h1]

lemma base_le_alignedBase (c : PoolCfg) : c.base ≤ alignedBase c := by
  rw [alignedBase_eq]; unfold BLOCK; omega

lemma alignedBase_le (c : PoolCfg) : alignedBase c ≤ c.base + (BLOCK - 1) := by
  rw [alignedBase_eq]; exact Nat.div_mul_le_self _ _

lemma alignedBase_mod (c : PoolCfg) : alignedBase c % BLOCK = 0 := by
  rw [alignedBase_eq]; exact Nat.mul_mod_left _ _

lemma maxEntries_blocks_le (c : PoolCfg) : maxEntries c * BLOCK ≤ poolSize c := by
  unfold maxEntries poolSize BLOCK; omega

lemma le_maxEntries (c : PoolCfg) {k : Nat} (h : k * BLOCK ≤ poolSize c) :
    k ≤ maxEntries c := by
  unfold maxEntries poolSize BLOCK at *; omega

lemma and_mask_eq_mod (p : Nat) : p &&& (BLOCK - 1) = p % BLOCK := by
  have h := Nat.and_pow_two_sub_one_eq_mod p 16
  norm_num at h
  unfold BLOCK
  norm_num
  exact h

lemma sizeBlocks_eq (size : Nat) : sizeBlocks size = (size + (BLOCK - 1)) / BLOCK := by
  unfold sizeBlocks
  rw [and_mask_eq_mod]
  by_cases hz : size % BLOCK = 0
  · rw [if_neg (by simpa using hz)]
    unfold BLOCK at *; omega
  · rw [if_pos (by simpa using hz)]
    unfold BLOCK at *; omega

lemma sizeBlocks_zero_iff (size : Nat) : sizeBlocks size = 0 ↔ size = 0 := by
  rw [sizeBlocks_eq]; unfold BLOCK; omega

/-! ### Properties of the marking loops -/

lemma markRange_length (b : Nat) : ∀ (m : List Nat) (s v : Nat),
    (markRange m s b v).length = m.length := by
  induction b with
  | zero => intro m s v; rfl
  | succ b ih => intro m s v; rw [markRange, ih, List.length_set]

lemma markRange_getElem? (b : Nat) : ∀ (m : List Nat) (s v : Nat), s + b ≤ m.length →
    ∀ i, (markRange m s b v)[i]? = if s ≤ i ∧ i < s + b then some v else m[i]? := by
  induction b with
  | zero =>
    intro m s v _ i
    rw [markRange, if_neg (by omega)]
  | succ b ih =>
    intro m s v h i
    rw [markRange, ih (m.set s v) (s + 1) v (by rw [List.length_set]; omega) i,
      List.getElem?_set]
    by_cases h1 : s + 1 ≤ i ∧ i < s + 1 + b
    · rw [if_pos h1, if_pos (show s ≤ i ∧ i < s + (b + 1) by omega)]
    · rw [if_neg h1]
      by_cases hsi : s = i
      · subst hsi
        rw [if_pos rfl, if_pos (show s < m.length by omega),
          if_pos (show s ≤ s ∧ s < s + (b + 1) by omega)]
      · rw [if_neg hsi, if_neg (show ¬(s ≤ i ∧ i < s + (b + 1)) by omega)]

lemma markRange_getD (b : Nat) (m : List Nat) (s v : Nat) (h : s + b ≤ m.length)
    (i : Nat) :
    (markRange m s b v).getD i 0 = if s ≤ i ∧ i < s + b then v else m.getD i 0 := by
  rw [List.getD_eq_getElem?_getD, List.getD_eq_getElem?_getD,
    markRange_getElem? b m s v h i]
  by_cases hc : s ≤ i ∧ i < s + b
  · rw [if_pos hc, if_pos hc]; rfl
  · rw [if_neg hc, if_neg hc]

lemma markRange_markRange (b : Nat) (m : List Nat) (s v : Nat) (h : s + b ≤ m.length) :
    markRange (markRange m s b v) s b v = markRange m s b v := by
  apply List.ext_getElem?
  intro i
  rw [markRange_getElem? b _ s v (by rw [markRange_length]; exact h) i,
    markRange_getElem? b m s v h i]
  by_cases hc : s ≤ i ∧ i < s + b
  · simp only [if_pos hc]
  · simp only [if_neg hc]

lemma eq_replicate_zero (m : List Nat) (N : Nat) (hlen : m.length = N)
    (h : ∀ i, i < N → m.getD i 0 = 0) : m = List.replicate N 0 := by
  apply List.ext_getElem?
  intro i
  rw [List.getElem?_replicate]
  by_cases hi : i < N
  · rw [if_pos hi]
    have hmem : i < m.length := by omega
    have h2 := h i hi
    rw [List.getD_eq_getElem?_getD, List.getElem?_eq_getElem hmem] at h2
    rw [List.getElem?_eq_getElem hmem]
    simpa using h2
  · rw [if_neg hi]
    exact List.getElem?_eq_none (by omega)

/-! ### Properties of the first-fit scan -/

lemma runFree_iff (m : List Nat) (b : Nat) : ∀ s,
    runFree m s b = true ↔ ∀ i, s ≤ i → i < s + b → m.getD i 0 = 0 := by
  induction b with
  | zero =>
    intro s
    constructor
    · intro _ i h1 h2; omega
    · intro _; rfl
  | succ b ih =>
    intro s
    rw [runFree, Bool.and_eq_true, beq_iff_eq, ih (s + 1)]
    constructor
    · rintro ⟨h0, hr⟩ i h1 h2
      rcases Nat.eq_or_lt_of_le h1 with rfl | hlt
      · exact h0
      · exact hr i (by omega) (by omega)
    · intro h
      exact ⟨h s le_rfl (by omega), fun i h1 h2 => h i (by omega) (by omega)⟩

lemma goodStart_iff (m : List Nat) (b s : Nat) (hb : 0 < b) :
    goodStart m b s = true ↔ ∀ i, s ≤ i → i < s + b → m.getD i 0 = 0 := by
  unfold goodStart
  rw [Bool.and_eq_true, beq_iff_eq, runFree_iff]
  constructor
  · rintro ⟨_, h⟩; exact h
  · intro h; exact ⟨h s le_rfl (by omega), h⟩

lemma findFitAux_none_iff (m : List Nat) (b : Nat) : ∀ fuel start,
    findFitAux m b start fuel = none ↔
      ∀ j, start ≤ j → j < start + fuel → goodStart m b j ≠ true := by
  intro fuel
  induction fuel with
  | zero =>
    intro start
    rw [findFitAux]
    constructor
    · intro _ j h1 h2; omega
    · intro _; rfl
  | succ fuel ih =>
    intro start
    rw [findFitAux]
    by_cases hg : goodStart m b start = true
    · rw [if_pos hg]
      constructor
      · intro h; exact absurd h (by simp)
      · intro h; exact absurd hg (h start le_rfl (by omega))
    · rw [if_neg hg, ih (start + 1)]
      constructor
      · intro h j h1 h2
        rcases Nat.eq_or_lt_of_le h1 with rfl | hlt
        · exact hg
        · exact h j (by omega) (by omega)
      · intro h j h1 h2
        exact h j (by omega) (by omega)

lemma findFitAux_some (m : List Nat) (b : Nat) : ∀ fuel start s,
    findFitAux m b start fuel = some s →
      goodStart m b s = true ∧ start ≤ s ∧ s < start + fuel ∧
        ∀ j, start ≤ j → j < s → goodStart m b j ≠ true := by
  intro fuel
  induction fuel with
  | zero => intro start s h; rw [findFitAux] at h; exact absurd h (by simp)
  | succ fuel ih =>
    intro start s h
    rw [findFitAux] at h
    by_cases hg : goodStart m b start = true
    · rw [if_pos hg] at h
      injection h with h
      subst h
      exact ⟨hg, le_rfl, by omega, fun j h1 h2 => by omega⟩
    · rw [if_neg hg] at h
      obtain ⟨g1, g2, g3, g4⟩ := ih (start + 1) s h
      refine ⟨g1, by omega, by omega, fun j h1 h2 => ?_⟩
      rcases Nat.eq_or_lt_of_le h1 with rfl | hlt
      · exact hg
      · exact g4 j (by omega) h2

lemma findFit_none_iff (m : List Nat) (N b : Nat) (hb : 0 < b) :
    findFit m N b = none ↔ ∀ s, ¬ fitsAt m N b s := by
  unfold findFit
  rw [findFitAux_none_iff]
  constructor
  · rintro h s ⟨h1, h2⟩
    exact h s (by omega) (by omega) ((goodStart_iff m b s hb).2 h2)
  · intro h j _ h2 hg
    exact h j ⟨by omega, (goodStart_iff m b j hb).1 hg⟩

lemma findFit_first (m : List Nat) (N b s : Nat) (hb : 0 < b)
    (h : findFit m N b = some s) :
    fitsAt m N b s ∧ ∀ t, fitsAt m N b t → s ≤ t := by
  obtain ⟨g1, _, g3, g4⟩ := findFitAux_some m b (N + 1 - b) 0 s h
  constructor
  · exact ⟨by omega, (goodStart_iff m b s hb).1 g1⟩
  · intro t ht
    by_contra hlt
    push_neg at hlt
    exact g4 t (by omega) hlt ((goodStart_iff m b t hb).2 ht.2)

lemma runFree_congr (m m2 : List Nat) (b : Nat) : ∀ s,
    (∀ i, s ≤ i → i < s + b → m.getD i 0 = m2.getD i 0) →
      runFree m s b = runFree m2 s b := by
  induction b with
  | zero => intro s _; rfl
  | succ b ih =>
    intro s h
    rw [runFree, runFree, h s le_rfl (by omega),
      ih (s + 1) (fun i h1 h2 => h i (by omega) (by omega))]

lemma findFitAux_congr (m m2 : List Nat) (b : Nat) (hb : 0 < b) : ∀ fuel start,
    (∀ i, i + 1 < start + fuel + b → m.getD i 0 = m2.getD i 0) →
      findFitAux m b start fuel = findFitAux m2 b start fuel := by
  intro fuel
  induction fuel with
  | zero => intro start _; rfl
  | succ fuel ih =>
    intro start h
    rw [findFitAux, findFitAux]
    have hg : goodStart m b start = goodStart m2 b start := by
      unfold goodStart
      rw [h start (by omega),
        runFree_congr m m2 b start (fun i h1 h2 => h i (by omega))]
    rw [hg]
    by_cases hgs : goodStart m2 b start = true
    · rw [if_pos hgs, if_pos hgs]
    · rw [if_neg hgs, if_neg hgs]
      exact ih (start + 1) (fun i hi => h i (by omega))

lemma findFit_congr (m m2 : List Nat) (N b : Nat) (hb : 0 < b)
    (h : ∀ i, i < N → m.getD i 0 = m2.getD i 0) :
    findFit m N b = findFit m2 N b := by
  unfold findFit
  by_cases hbN : b ≤ N
  · exact findFitAux_congr m m2 b hb (N + 1 - b) 0 (fun i hi => h i (by omega))
  · have h0 : N + 1 - b = 0 := by omega
    rw [h0]
    rfl

/-! ### Characterizations of `lj_alloc_from_static_pool` and `lj_release_to_static_pool` -/

/-- The condition of the internal `assert0` at lines 111/163 always holds. -/
lemma pool_assert (c : PoolCfg) :
    c.base ≤ alignedBase c ∧ c.base ≤ c.base + (poolSize c + BLOCK) :=
  ⟨base_le_alignedBase c, Nat.le_add_right _ _⟩

lemma acquire_eq (c : PoolCfg) (size : Nat) (prot : Int) (mp : Bool) (m : List Nat) :
    lj_alloc_from_static_pool c size prot mp m =
      if sizeBlocks size = 0 then .fail m
      else
        match findFit m (maxEntries c) (sizeBlocks size) with
        | none => .fail m
        | some start =>
          if mp then
            .ok (alignedBase c + start * BLOCK) (markRange m start (sizeBlocks size) 1)
          else .fail m := by
  unfold lj_alloc_from_static_pool
  by_cases h0 : sizeBlocks size = 0
  · rw [if_pos h0, if_pos h0]
  · rw [if_neg h0, if_neg h0]
    cases hf : findFit m (maxEntries c) (sizeBlocks size) with
    | none => rfl
    | some s =>
      dsimp only
      rw [if_pos (pool_assert c)]

lemma release_eq (c : PoolCfg) (p size : Nat) (m : List Nat) :
    lj_release_to_static_pool c p size m =
      if sizeBlocks size = 0 then .err m
      else
        if p < alignedBase c ∨ alignedBase c + poolSize c < p + sizeBlocks size * BLOCK then
          .err m
        else
          if p &&& (BLOCK - 1) = 0 then
            if (p - alignedBase c) / BLOCK < maxEntries c then
              if (p - alignedBase c) / BLOCK + sizeBlocks size ≤ maxEntries c then
                .ok (markRange m ((p - alignedBase c) / BLOCK) (sizeBlocks size) 0)
              else .assertFail
            else .assertFail
          else .assertFail := by
  unfold lj_release_to_static_pool
  by_cases h0 : sizeBlocks size = 0
  · rw [if_pos h0, if_pos h0]
  · rw [if_neg h0, if_neg h0, if_pos (pool_assert c)]

lemma acquire_fail_map (c : PoolCfg) (size : Nat) (prot : Int) (mp : Bool)
    (m m' : List Nat) (h : lj_alloc_from_static_pool c size prot mp m = .fail m') :
    m' = m := by
  rw [acquire_eq] at h
  split at h
  · injection h with h; exact h.symm
  · split at h
    · injection h with h; exact h.symm
    · split at h
      · exact absurd h (by simp)
      · injection h with h; exact h.symm

lemma acquire_ok_elim (c : PoolCfg) (size : Nat) (prot : Int) (mp : Bool)
    (m : List Nat) (p : Nat) (m' : List Nat)
    (h : lj_alloc_from_static_pool c size prot mp m = .ok p m') :
    ∃ s, mp = true ∧ sizeBlocks size ≠ 0 ∧
      findFit m (maxEntries c) (sizeBlocks size) = some s ∧
      p = alignedBase c + s * BLOCK ∧ m' = markRange m s (sizeBlocks size) 1 := by
  rw [acquire_eq] at h
  by_cases h0 : sizeBlocks size = 0
  · rw [if_pos h0] at h; exact absurd h (by simp)
  · rw [if_neg h0] at h
    cases hf : findFit m (maxEntries c) (sizeBlocks size) with
    | none => rw [hf] at h; exact absurd h (by simp)
    | some s =>
      rw [hf] at h
      cases mp with
      | false => exact absurd h (by simp)
      | true =>
        dsimp only at h
        injection h with h1 h2
        exact ⟨s, rfl, h0, rfl, h1.symm, h2.symm⟩

lemma release_ok_elim (c : PoolCfg) (p size : Nat) (m m' : List Nat)
    (h : lj_release_to_static_pool c p size m = .ok m') :
    sizeBlocks size ≠ 0 ∧
      (p - alignedBase c) / BLOCK < maxEntries c ∧
      (p - alignedBase c) / BLOCK + sizeBlocks size ≤ maxEntries c ∧
      m' = markRange m ((p - alignedBase c) / BLOCK) (sizeBlocks size) 0 := by
  rw [release_eq] at h
  by_cases h0 : sizeBlocks size = 0
  · rw [if_pos h0] at h; exact absurd h (by simp)
  · rw [if_neg h0] at h
    split at h
    · exact absurd h (by simp)
    · split at h
      · split at h
        · split at h
          · injection h with h
            exact ⟨h0, by assumption, by assumption, h.symm⟩
          · exact absurd h (by simp)
        · exact absurd h (by simp)
      · exact absurd h (by simp)

/-- Given that `size_blocks` is nonzero and `p` passes the bounds and
alignment checks, the index asserts at lines 173-174 hold and the release
succeeds, clearing exactly the run starting at `(p - alignedBase) / BLOCK`. -/
lemma release_index_bounds (c : PoolCfg) (p size : Nat)
    (h0 : sizeBlocks size ≠ 0) (hlo : alignedBase c ≤ p)
    (hhi : p + sizeBlocks size * BLOCK ≤ alignedBase c + poolSize c)
    (hal : p % BLOCK = 0) :
    (p - alignedBase c) / BLOCK < maxEntries c ∧
      (p - alignedBase c) / BLOCK + sizeBlocks size ≤ maxEntries c ∧
      (p - alignedBase c) / BLOCK * BLOCK = p - alignedBase c := by
  have hA : alignedBase c % BLOCK = 0 := alignedBase_mod c
  have hidx : (p - alignedBase c) / BLOCK * BLOCK = p - alignedBase c := by
    unfold BLOCK at *; omega
  have hle : ((p - alignedBase c) / BLOCK + sizeBlocks size) * BLOCK ≤ poolSize c := by
    rw [Nat.add_mul, hidx]
    omega
  have h2 := le_maxEntries c hle
  have hb : 0 < sizeBlocks size := Nat.pos_of_ne_zero h0
  exact ⟨by omega, h2, hidx⟩

lemma release_ok (c : PoolCfg) (p size : Nat) (m : List Nat)
    (h0 : sizeBlocks size ≠ 0) (hlo : alignedBase c ≤ p)
    (hhi : p + sizeBlocks size * BLOCK ≤ alignedBase c + poolSize c)
    (hal : p % BLOCK = 0) :
    lj_release_to_static_pool c p size m =
      .ok (markRange m ((p - alignedBase c) / BLOCK) (sizeBlocks size) 0) := by
  obtain ⟨h1, h2, _⟩ := release_index_bounds c p size h0 hlo hhi hal
  rw [release_eq, if_neg h0, if_neg (show ¬(p < alignedBase c ∨
      alignedBase c + poolSize c < p + sizeBlocks size * BLOCK) by omega),
    if_pos (by rw [and_mask_eq_mod]; exact hal), if_pos h1, if_pos h2]

/-- The index at which an address granted by `acquire` sits in the map. -/
lemma idx_of_addr (c : PoolCfg) (s : Nat) :
    (alignedBase c + s * BLOCK - alignedBase c) / BLOCK = s := by
  rw [Nat.add_sub_cancel_left]
  exact Nat.mul_div_cancel s (by decide)

/-! ### Acquire/release traces and the round-trip property -/

/-- Map index of the first block of an outstanding allocation `(address, size)`. -/
def startOf (c : PoolCfg) (e : Nat × Nat) : Nat := (e.1 - alignedBase c) / BLOCK

/-- Block count of an outstanding allocation `(address, size)`. -/
def blocksOf (e : Nat × Nat) : Nat := sizeBlocks e.2

/-- Block `i` belongs to the run of the outstanding allocation `e`. -/
def Covers (c : PoolCfg) (e : Nat × Nat) (i : Nat) : Prop :=
  startOf c e ≤ i ∧ i < startOf c e + blocksOf e

/-- Well-formedness of an outstanding allocation: nonempty, in bounds, and
its address is block-indexed from the aligned base. -/
def GoodLive (c : PoolCfg) (e : Nat × Nat) : Prop :=
  0 < blocksOf e ∧ startOf c e + blocksOf e ≤ maxEntries c ∧
    e.1 = alignedBase c + startOf c e * BLOCK

/-- The runs of two outstanding allocations do not share a block. -/
def RangesDisjoint (c : PoolCfg) (e f : Nat × Nat) : Prop :=
  startOf c e + blocksOf e ≤ startOf c f ∨ startOf c f + blocksOf f ≤ startOf c e

/-- Invariant tying the occupancy map to the multiset of outstanding
allocations: a block is marked nonzero exactly when some live allocation
covers it, and live runs are pairwise disjoint. -/
def PoolInv (c : PoolCfg) (m : List Nat) (live : List (Nat × Nat)) : Prop :=
  m.length = maxEntries c ∧
    (∀ e ∈ live, GoodLive c e) ∧
    List.Pairwise (RangesDisjoint c) live ∧
    (∀ i, i < maxEntries c → (m.getD i 0 ≠ 0 ↔ ∃ e ∈ live, Covers c e i))

/-- States reachable from the zero-initialized map by any interleaving of
calls: `live` records the outstanding (address, size) pairs, i.e. the
successful acquires not yet released.  A `rel` step releases one
outstanding allocation with exactly the address and size it was granted
with. -/
inductive Reaches (c : PoolCfg) : List Nat → List (Nat × Nat) → Prop
  | init : Reaches c (List.replicate (maxEntries c) 0) []
  | acqOk {m live size p m'} (prot : Int) :
      Reaches c m live →
      lj_alloc_from_static_pool c size prot true m = .ok p m' →
      Reaches c m' ((p, size) :: live)
  | acqFail {m live size m'} (prot : Int) (mp : Bool) :
      Reaches c m live →
      lj_alloc_from_static_pool c size prot mp m = .fail m' →
      Reaches c m' live
  | rel {m live p size m'} :
      Reaches c m live →
      (p, size) ∈ live →
      lj_release_to_static_pool c p size m = .ok m' →
      Reaches c m' (live.erase (p, size))

lemma getD_replicate_zero (N i : Nat) : (List.replicate N 0).getD i 0 = 0 := by
  rw [List.getD_eq_getElem?_getD, List.getElem?_replicate]
  by_cases hi : i < N
  · rw [if_pos hi]; rfl
  · rw [if_neg hi]; rfl

lemma rangesDisjoint_symm (c : PoolCfg) : Symmetric (RangesDisjoint c) := by
  intro a b h
  exact h.symm

lemma not_mem_erase_self {R : (Nat × Nat) → (Nat × Nat) → Prop}
    {l : List (Nat × Nat)} {e : Nat × Nat}
    (hp : List.Pairwise R l) (hR : ¬ R e e) : e ∉ l.erase e := by
  induction l with
  | nil => simp
  | cons a t ih =>
    rw [List.erase_cons]
    by_cases hae : a = e
    · subst hae
      rw [if_pos (by simp)]
      intro hmem
      exact hR (List.rel_of_pairwise_cons hp hmem)
    · rw [if_neg (by simp [hae])]
      intro hmem
      rcases List.mem_cons.1 hmem with h | h
      · exact hae h.symm
      · exact ih (List.Pairwise.of_cons hp) h

lemma reaches_inv {c : PoolCfg} {m : List Nat} {live : List (Nat × Nat)}
    (h : Reaches c m live) : PoolInv c m live := by
  induction h with
  | init =>
    refine ⟨List.length_replicate _ _, fun e he => absurd he (List.not_mem_nil e),
      List.Pairwise.nil, fun i _ => ?_⟩
    rw [getD_replicate_zero]
    simp
  | @acqOk m live size p m' prot hr hacq ih =>
    obtain ⟨hlen, hgood, hdisj, hmap⟩ := ih
    obtain ⟨s, _, h0, hff, hp, hm'⟩ := acquire_ok_elim _ _ _ _ _ _ _ hacq
    have hb : 0 < sizeBlocks size := Nat.pos_of_ne_zero h0
    obtain ⟨⟨hsb, hfree⟩, _⟩ := findFit_first _ (maxEntries c) _ s hb hff
    have hstart : startOf c (p, size) = s := by
      rw [startOf, hp]
      exact idx_of_addr c s
    refine ⟨by rw [hm', markRange_length]; exact hlen, ?_, ?_, ?_⟩
    · intro e he
      rcases List.mem_cons.1 he with rfl | he
      · exact ⟨hb, by rw [hstart]; exact hsb, by rw [hstart]; exact hp⟩
      · exact hgood e he
    · refine List.Pairwise.cons ?_ hdisj
      intro f hf
      by_contra hnd
      have hblk2 : blocksOf (p, size) = sizeBlocks size := rfl
      rw [RangesDisjoint, hstart, hblk2, not_or] at hnd
      obtain ⟨hbf, hfN, _⟩ := hgood f hf
      have hj1 : s ≤ max s (startOf c f) := le_max_left _ _
      have hj2 : max s (startOf c f) < s + sizeBlocks size := by omega
      have hj3 : Covers c f (max s (startOf c f)) :=
        ⟨le_max_right _ _, by omega⟩
      have hever := (hmap (max s (startOf c f)) (by omega)).2 ⟨f, hf, hj3⟩
      exact hever (hfree _ hj1 hj2)
    · intro i hi
      rw [hm', markRange_getD _ m s 1 (by rw [hlen]; exact hsb) i]
      by_cases hc : s ≤ i ∧ i < s + sizeBlocks size
      · rw [if_pos hc]
        constructor
        · intro _
          exact ⟨(p, size), List.mem_cons_self _ _,
            by rw [Covers, hstart, blocksOf]; exact hc⟩
        · intro _
          exact one_ne_zero
      · rw [if_neg hc, hmap i hi]
        constructor
        · rintro ⟨e, he, hcov⟩
          exact ⟨e, List.mem_cons_of_mem _ he, hcov⟩
        · rintro ⟨e, he, hcov⟩
          rcases List.mem_cons.1 he with rfl | he
          · rw [Covers, hstart, blocksOf] at hcov
            exact absurd hcov hc
          · exact ⟨e, he, hcov⟩
  | @acqFail m live size m' prot mp hr hacq ih =>
    rw [acquire_fail_map _ _ _ _ _ _ hacq]
    exact ih
  | @rel m live p size m' hr hmem hrel ih =>
    obtain ⟨hlen, hgood, hdisj, hmap⟩ := ih
    obtain ⟨h0, hidxlt, hidxle, hm'⟩ := release_ok_elim _ _ _ _ _ hrel
    obtain ⟨hbe, hse, hpe⟩ := hgood _ hmem
    have hidx : startOf c (p, size) = (p - alignedBase c) / BLOCK := rfl
    have hblk : blocksOf (p, size) = sizeBlocks size := rfl
    have hnotRee : ¬ RangesDisjoint c (p, size) (p, size) := by
      rw [RangesDisjoint]
      omega
    refine ⟨by rw [hm', markRange_length]; exact hlen, ?_, ?_, ?_⟩
    · intro e he
      exact hgood e (List.mem_of_mem_erase he)
    · exact List.Pairwise.sublist (List.erase_sublist _ _) hdisj
    · intro i hi
      rw [hm', markRange_getD _ m _ 0 (by rw [hlen]; exact hidxle) i]
      by_cases hc : (p - alignedBase c) / BLOCK ≤ i ∧
          i < (p - alignedBase c) / BLOCK + sizeBlocks size
      · rw [if_pos hc]
        constructor
        · intro hne
          exact absurd rfl hne
        · rintro ⟨e, he, hcov⟩
          by_cases hee : e = (p, size)
          · exact absurd (hee ▸ he) (not_mem_erase_self hdisj hnotRee)
          · have helive := List.mem_of_mem_erase he
            have hd := List.Pairwise.forall (rangesDisjoint_symm c) hdisj hmem helive
              (fun hq => hee hq.symm)
            rw [RangesDisjoint, hidx, hblk] at hd
            obtain ⟨hcov1, hcov2⟩ := hcov
            omega
      · rw [if_neg hc, hmap i hi]
        constructor
        · rintro ⟨e, he, hcov⟩
          by_cases hee : e = (p, size)
          · subst hee
            rw [Covers, hidx, hblk] at hcov
            exact absurd hcov hc
          · exact ⟨e, (List.mem_erase_of_ne hee).2 he, hcov⟩
        · rintro ⟨e, he, hcov⟩
          exact ⟨e, List.mem_of_mem_erase he, hcov⟩

/-! ### Claims -/

/-- A concrete configuration for witnesses: a 256 KiB pool (4 blocks of
64 KiB) whose backing array starts at address 1, so the aligned base is
65536. -/
def cfg1 : PoolCfg := ⟨256, 1, by decide, by decide⟩

/-- C8: for every placement of the backing region, the aligned base is the
region start rounded up to the next `BLOCK` boundary, is at or above the
region start, and the aligned `poolSize`-byte window fits inside the
region's capacity of `poolSize + BLOCK` bytes. -/
theorem aligned_base_within_region (c : PoolCfg) :
    alignedBase c = (c.base + (BLOCK - 1)) / BLOCK * BLOCK ∧
    alignedBase c % BLOCK = 0 ∧
    c.base ≤ alignedBase c ∧
    alignedBase c + poolSize c ≤ c.base + (poolSize c + BLOCK) := by
  refine ⟨alignedBase_eq c, alignedBase_mod c, base_le_alignedBase c, ?_⟩
  have h := alignedBase_le c
  unfold BLOCK at *
  omega

theorem aligned_base_within_region_witness :
    alignedBase cfg1 = (cfg1.base + (BLOCK - 1)) / BLOCK * BLOCK ∧
    alignedBase cfg1 % BLOCK = 0 ∧
    cfg1.base ≤ alignedBase cfg1 ∧
    alignedBase cfg1 + poolSize cfg1 ≤ cfg1.base + (poolSize cfg1 + BLOCK) :=
  aligned_base_within_region cfg1

/-- C4: every non-NULL address returned by `lj_alloc_from_static_pool` is
`BLOCK`-aligned, lies within `[alignedBase, alignedBase + poolSize)`, and
the whole granted range of `sizeBlocks size * BLOCK` bytes stays within
`[alignedBase, alignedBase + poolSize)`. -/
theorem acquire_address_aligned_in_pool (c : PoolCfg) (size : Nat) (prot : Int)
    (mp : Bool) (m : List Nat) (p : Nat) (m' : List Nat)
    (h : lj_alloc_from_static_pool c size prot mp m = .ok p m') :
    p % BLOCK = 0 ∧ alignedBase c ≤ p ∧ p < alignedBase c + poolSize c ∧
      p + sizeBlocks size * BLOCK ≤ alignedBase c + poolSize c := by
  obtain ⟨s, _, h0, hff, hp, _⟩ := acquire_ok_elim _ _ _ _ _ _ _ h
  have hb : 0 < sizeBlocks size := Nat.pos_of_ne_zero h0
  obtain ⟨⟨hsb, _⟩, _⟩ := findFit_first _ _ _ _ hb hff
  have hA := alignedBase_mod c
  have hmax := maxEntries_blocks_le c
  have h1 : (s + sizeBlocks size) * BLOCK ≤ maxEntries c * BLOCK :=
    Nat.mul_le_mul_right _ hsb
  rw [Nat.add_mul] at h1
  have h2 : 1 * BLOCK ≤ sizeBlocks size * BLOCK := Nat.mul_le_mul_right _ hb
  rw [one_mul] at h2
  have h3 : 0 < BLOCK := by decide
  subst hp
  refine ⟨?_, Nat.le_add_right _ _, by omega, by omega⟩
  rw [Nat.add_mul_mod_self_right, hA]

theorem acquire_address_aligned_in_pool_witness :
    lj_alloc_from_static_pool cfg1 65536 0 true [0, 0, 0, 0] = .ok 65536 [1, 0, 0, 0] ∧
      (65536 % BLOCK = 0 ∧ alignedBase cfg1 ≤ 65536 ∧
        65536 < alignedBase cfg1 + poolSize cfg1 ∧
        65536 + sizeBlocks 65536 * BLOCK ≤ alignedBase cfg1 + poolSize cfg1) :=
  ⟨by decide,
    acquire_address_aligned_in_pool cfg1 65536 0 true [0, 0, 0, 0] 65536 [1, 0, 0, 0]
      (by decide)⟩

/-- C3: if the `mprotect` call fails, `lj_alloc_from_static_pool` returns
NULL and the occupancy map is exactly the map before the call, even though
a fitting free run exists. -/
theorem mprotect_failure_leaves_map (c : PoolCfg) (size : Nat) (prot : Int)
    (m : List Nat) (hfit : ∃ s, fitsAt m (maxEntries c) (sizeBlocks size) s) :
    lj_alloc_from_static_pool c size prot false m = .fail m := by
  rw [acquire_eq]
  by_cases h0 : sizeBlocks size = 0
  · rw [if_pos h0]
  · rw [if_neg h0]
    cases hf : findFit m (maxEntries c) (sizeBlocks size) with
    | none => rfl
    | some s =>
      dsimp only
      rw [if_neg (by simp)]

theorem mprotect_failure_leaves_map_witness :
    (∃ s, fitsAt [0, 0, 0, 0] (maxEntries cfg1) (sizeBlocks 65536) s) ∧
      lj_alloc_from_static_pool cfg1 65536 0 false [0, 0, 0, 0] = .fail [0, 0, 0, 0] := by
  have hfit : ∃ s, fitsAt [0, 0, 0, 0] (maxEntries cfg1) (sizeBlocks 65536) s := by
    refine ⟨0, by decide, ?_⟩
    intro i h1 h2
    have hsb : sizeBlocks 65536 = 1 := by decide
    have hz : i = 0 := by omega
    subst hz
    rfl
  exact ⟨hfit, mprotect_failure_leaves_map cfg1 65536 0 [0, 0, 0, 0] hfit⟩

/-- C5: a release whose address is below the aligned base, or whose rounded
range runs past the pool end, returns the nonzero error and leaves the map
untouched. -/
theorem release_bounds_rejection (c : PoolCfg) (p size : Nat) (m : List Nat)
    (h : p < alignedBase c ∨ alignedBase c + poolSize c < p + sizeBlocks size * BLOCK) :
    lj_release_to_static_pool c p size m = .err m := by
  rw [release_eq]
  by_cases h0 : sizeBlocks size = 0
  · rw [if_pos h0]
  · rw [if_neg h0, if_pos h]

theorem release_bounds_rejection_witness :
    (0 < alignedBase cfg1 ∨
        alignedBase cfg1 + poolSize cfg1 < 0 + sizeBlocks 65536 * BLOCK) ∧
      lj_release_to_static_pool cfg1 0 65536 [1, 0, 0, 0] = .err [1, 0, 0, 0] :=
  ⟨by decide, release_bounds_rejection cfg1 0 65536 [1, 0, 0, 0] (by decide)⟩

/-- A run of `b` blocks granted at index `s` stays below the pool end. -/
lemma granted_range_le (c : PoolCfg) {s b : Nat} (h : s + b ≤ maxEntries c) :
    alignedBase c + s * BLOCK + b * BLOCK ≤ alignedBase c + poolSize c := by
  have h1 : (s + b) * BLOCK ≤ maxEntries c * BLOCK := Nat.mul_le_mul_right _ h
  rw [Nat.add_mul] at h1
  have hm := maxEntries_blocks_le c
  omega

/-- C7: both entry points compute `blocksNeeded = ceil(size / BLOCK)`;
acquiring half a block consumes exactly one full block and a release with
the same unrounded size frees exactly that block; when the size rounds to
zero blocks (i.e. `size = 0`), acquire returns NULL and release returns the
nonzero error, both leaving the map unchanged. -/
theorem size_rounding (c : PoolCfg) (prot : Int) (mp : Bool) :
    (∀ size : Nat, sizeBlocks size = (size + (BLOCK - 1)) / BLOCK) ∧
    (∀ size : Nat, sizeBlocks size = 0 ↔ size = 0) ∧
    sizeBlocks (BLOCK / 2) = 1 ∧
    (∀ (m : List Nat) (p : Nat) (m' : List Nat),
      lj_alloc_from_static_pool c (BLOCK / 2) prot true m = .ok p m' →
        ∃ s, m' = m.set s 1 ∧
          lj_release_to_static_pool c p (BLOCK / 2) m' = .ok (m'.set s 0)) ∧
    (∀ m : List Nat, lj_alloc_from_static_pool c 0 prot mp m = .fail m) ∧
    (∀ (p : Nat) (m : List Nat), lj_release_to_static_pool c p 0 m = .err m) := by
  have hb1 : sizeBlocks (BLOCK / 2) = 1 := by decide
  refine ⟨sizeBlocks_eq, sizeBlocks_zero_iff, hb1, ?_, ?_, ?_⟩
  · intro m p m' h
    obtain ⟨s, _, h0, hff, hp, hm'⟩ := acquire_ok_elim _ _ _ _ _ _ _ h
    obtain ⟨⟨hsb, _⟩, _⟩ := findFit_first _ _ _ _ (by omega) hff
    rw [hb1] at hsb
    refine ⟨s, by rw [hm', hb1]; rfl, ?_⟩
    have hrel := release_ok c p (BLOCK / 2) m' (by omega)
      (by rw [hp]; exact Nat.le_add_right _ _)
      (by rw [hp, hb1, one_mul]
          have := granted_range_le c (b := 1) hsb
          rw [one_mul] at this
          exact this)
      (by rw [hp, Nat.add_mul_mod_self_right, alignedBase_mod])
    rw [hrel, hp, idx_of_addr, hb1]
    rfl
  · intro m
    rw [acquire_eq, if_pos (by decide)]
  · intro p m
    rw [release_eq, if_pos (by decide)]

theorem size_rounding_witness :
    lj_alloc_from_static_pool cfg1 (BLOCK / 2) 0 true [0, 1, 0, 0] = .ok 65536 [1, 1, 0, 0] ∧
      ∃ s, [1, 1, 0, 0] = [0, 1, 0, 0].set s 1 ∧
        lj_release_to_static_pool cfg1 65536 (BLOCK / 2) [1, 1, 0, 0] =
          .ok ([1, 1, 0, 0].set s 0) :=
  ⟨by decide,
    (size_rounding cfg1 0 true).2.2.2.1 [0, 1, 0, 0] 65536 [1, 1, 0, 0] (by decide)⟩

/-- C9: release performs no provenance check: any `BLOCK`-aligned address
inside the pool whose rounded range fits below the pool end is accepted
with return 0, and exactly the blocks `[index, index + blocksNeeded)` are
cleared, whether or not that range was ever granted by acquire. -/
theorem release_no_provenance_check (c : PoolCfg) (p size : Nat) (m : List Nat)
    (hlen : m.length = maxEntries c)
    (hal : p % BLOCK = 0) (hlo : alignedBase c ≤ p)
    (hhi : p + sizeBlocks size * BLOCK ≤ alignedBase c + poolSize c)
    (hpos : 0 < size) :
    ∃ m', lj_release_to_static_pool c p size m = .ok m' ∧ m'.length = m.length ∧
      ∀ i, m'.getD i 0 =
        if (p - alignedBase c) / BLOCK ≤ i ∧
            i < (p - alignedBase c) / BLOCK + sizeBlocks size then 0
        else m.getD i 0 := by
  have h0 : sizeBlocks size ≠ 0 := by rw [Ne, sizeBlocks_zero_iff]; omega
  have hrel := release_ok c p size m h0 hlo hhi hal
  obtain ⟨hlt, hle, _⟩ := release_index_bounds c p size h0 hlo hhi hal
  refine ⟨_, hrel, by rw [markRange_length], ?_⟩
  intro i
  exact markRange_getD _ m _ 0 (by omega) i

theorem release_no_provenance_check_witness :
    ([1, 1, 1, 1].length = maxEntries cfg1 ∧ 131072 % BLOCK = 0 ∧
        alignedBase cfg1 ≤ 131072 ∧
        131072 + sizeBlocks 65536 * BLOCK ≤ alignedBase cfg1 + poolSize cfg1 ∧
        0 < 65536) ∧
      ∃ m', lj_release_to_static_pool cfg1 131072 65536 [1, 1, 1, 1] = .ok m' ∧
        m'.length = [1, 1, 1, 1].length ∧
        ∀ i, m'.getD i 0 =
          if (131072 - alignedBase cfg1) / BLOCK ≤ i ∧
              i < (131072 - alignedBase cfg1) / BLOCK + sizeBlocks 65536 then 0
          else [1, 1, 1, 1].getD i 0 :=
  ⟨by decide,
    release_no_provenance_check cfg1 131072 65536 [1, 1, 1, 1]
      (by decide) (by decide) (by decide) (by decide) (by decide)⟩

/-- C10: all map accesses stay inside `[0, maxEntries)`: when `blocksNeeded`
exceeds the entry count the scan runs zero iterations and acquire returns
NULL with the map untouched; a successful acquire or release writes only a
run lying inside the map; and the scan reads only indices below
`maxEntries` (its result depends on no other entries). -/
theorem map_access_in_bounds (c : PoolCfg) (size : Nat) (prot : Int) (mp : Bool)
    (m : List Nat) :
    (maxEntries c < sizeBlocks size →
      lj_alloc_from_static_pool c size prot mp m = .fail m) ∧
    (∀ p m', lj_alloc_from_static_pool c size prot mp m = .ok p m' →
      ∃ s, s + sizeBlocks size ≤ maxEntries c ∧
        m' = markRange m s (sizeBlocks size) 1) ∧
    (∀ p m', lj_release_to_static_pool c p size m = .ok m' →
      ∃ idx, idx < maxEntries c ∧ idx + sizeBlocks size ≤ maxEntries c ∧
        m' = markRange m idx (sizeBlocks size) 0) ∧
    (0 < sizeBlocks size → ∀ m2 : List Nat,
      (∀ i, i < maxEntries c → m.getD i 0 = m2.getD i 0) →
      findFit m (maxEntries c) (sizeBlocks size) =
        findFit m2 (maxEntries c) (sizeBlocks size)) := by
  refine ⟨?_, ?_, ?_, ?_⟩
  · intro h
    have hf : findFit m (maxEntries c) (sizeBlocks size) = none := by
      unfold findFit
      rw [show maxEntries c + 1 - sizeBlocks size = 0 by omega]
      rfl
    rw [acquire_eq, if_neg (by omega), hf]
  · intro p m' h
    obtain ⟨s, _, h0, hff, _, hm'⟩ := acquire_ok_elim _ _ _ _ _ _ _ h
    obtain ⟨⟨hsb, _⟩, _⟩ := findFit_first _ _ _ _ (Nat.pos_of_ne_zero h0) hff
    exact ⟨s, hsb, hm'⟩
  · intro p m' h
    obtain ⟨h0, hlt, hle, hm'⟩ := release_ok_elim _ _ _ _ _ h
    exact ⟨_, hlt, hle, hm'⟩
  · intro hb m2 h
    exact findFit_congr m m2 (maxEntries c) (sizeBlocks size) hb h

theorem map_access_in_bounds_witness :
    maxEntries cfg1 < sizeBlocks 327680 ∧
      lj_alloc_from_static_pool cfg1 327680 0 true [0, 0, 0, 0] = .fail [0, 0, 0, 0] :=
  ⟨by decide, (map_access_in_bounds cfg1 327680 0 true [0, 0, 0, 0]).1 (by decide)⟩

/-- C1: with `mprotect` succeeding and a positive block count
`b = sizeBlocks size`, acquire returns NULL (with the map unchanged) iff no
run of `b` contiguous free blocks exists; otherwise it returns
`alignedBase + s * BLOCK` for the least fitting start index `s`
(first fit, lowest address wins) and marks exactly that run. -/
theorem acquire_first_fit (c : PoolCfg) (size b : Nat) (prot : Int) (m : List Nat)
    (hb : b = sizeBlocks size) (hpos : 0 < b) :
    (∀ m', lj_alloc_from_static_pool c size prot true m = .fail m' →
      m' = m ∧ ¬ ∃ s, fitsAt m (maxEntries c) b s) ∧
    ((¬ ∃ s, fitsAt m (maxEntries c) b s) →
      lj_alloc_from_static_pool c size prot true m = .fail m) ∧
    (∀ p m', lj_alloc_from_static_pool c size prot true m = .ok p m' →
      ∃ s, fitsAt m (maxEntries c) b s ∧
        (∀ t, fitsAt m (maxEntries c) b t → s ≤ t) ∧
        p = alignedBase c + s * BLOCK ∧ m' = markRange m s b 1) ∧
    lj_alloc_from_static_pool c size prot true m ≠ .assertFail := by
  subst hb
  have h0 : sizeBlocks size ≠ 0 := by omega
  refine ⟨?_, ?_, ?_, ?_⟩
  · intro m' hfail
    refine ⟨acquire_fail_map _ _ _ _ _ _ hfail, ?_⟩
    rw [acquire_eq, if_neg h0] at hfail
    cases hf : findFit m (maxEntries c) (sizeBlocks size) with
    | none =>
      rintro ⟨s, hs⟩
      exact (findFit_none_iff m _ _ hpos).1 hf s hs
    | some s =>
      rw [hf] at hfail
      dsimp only at hfail
      exact absurd hfail (by simp)
  · intro hnf
    have hf : findFit m (maxEntries c) (sizeBlocks size) = none := by
      cases hf : findFit m (maxEntries c) (sizeBlocks size) with
      | none => rfl
      | some s => exact absurd ⟨s, (findFit_first m _ _ s hpos hf).1⟩ hnf
    rw [acquire_eq, if_neg h0, hf]
  · intro p m' h
    obtain ⟨s, _, _, hff, hp, hm'⟩ := acquire_ok_elim _ _ _ _ _ _ _ h
    obtain ⟨h1, h2⟩ := findFit_first _ _ _ _ hpos hff
    exact ⟨s, h1, h2, hp, hm'⟩
  · rw [acquire_eq, if_neg h0]
    cases hf : findFit m (maxEntries c) (sizeBlocks size) with
    | none => simp
    | some s =>
      dsimp only
      simp

theorem acquire_first_fit_witness :
    (1 = sizeBlocks 65536 ∧ 0 < 1) ∧
    ((∀ m', lj_alloc_from_static_pool cfg1 65536 0 true [1, 0, 1, 0] = .fail m' →
        m' = [1, 0, 1, 0] ∧ ¬ ∃ s, fitsAt [1, 0, 1, 0] (maxEntries cfg1) 1 s) ∧
      ((¬ ∃ s, fitsAt [1, 0, 1, 0] (maxEntries cfg1) 1 s) →
        lj_alloc_from_static_pool cfg1 65536 0 true [1, 0, 1, 0] = .fail [1, 0, 1, 0]) ∧
      (∀ p m', lj_alloc_from_static_pool cfg1 65536 0 true [1, 0, 1, 0] = .ok p m' →
        ∃ s, fitsAt [1, 0, 1, 0] (maxEntries cfg1) 1 s ∧
          (∀ t, fitsAt [1, 0, 1, 0] (maxEntries cfg1) 1 t → s ≤ t) ∧
          p = alignedBase cfg1 + s * BLOCK ∧ m' = markRange [1, 0, 1, 0] s 1 1) ∧
      lj_alloc_from_static_pool cfg1 65536 0 true [1, 0, 1, 0] ≠ .assertFail) :=
  ⟨⟨by decide, by decide⟩,
    acquire_first_fit cfg1 65536 1 0 [1, 0, 1, 0] (by decide) (by decide)⟩

/-- C6: releasing an address/size pair previously granted by acquire
succeeds, and releasing it a second time succeeds again and leaves the map
exactly as after the first release. -/
theorem release_idempotent (c : PoolCfg) (size : Nat) (prot : Int)
    (m0 : List Nat) (p : Nat) (m1 m : List Nat)
    (hacq : lj_alloc_from_static_pool c size prot true m0 = .ok p m1)
    (hlen : m.length = maxEntries c) :
    ∃ m2, lj_release_to_static_pool c p size m = .ok m2 ∧
      lj_release_to_static_pool c p size m2 = .ok m2 := by
  obtain ⟨s, _, h0, hff, hp, _⟩ := acquire_ok_elim _ _ _ _ _ _ _ hacq
  obtain ⟨⟨hsb, _⟩, _⟩ := findFit_first _ _ _ _ (Nat.pos_of_ne_zero h0) hff
  have hlo : alignedBase c ≤ p := by rw [hp]; exact Nat.le_add_right _ _
  have hhi : p + sizeBlocks size * BLOCK ≤ alignedBase c + poolSize c := by
    rw [hp]; exact granted_range_le c hsb
  have hal : p % BLOCK = 0 := by
    rw [hp, Nat.add_mul_mod_self_right, alignedBase_mod]
  have h1 := release_ok c p size m h0 hlo hhi hal
  have h2 := release_ok c p size
    (markRange m ((p - alignedBase c) / BLOCK) (sizeBlocks size) 0) h0 hlo hhi hal
  refine ⟨_, h1, ?_⟩
  rw [h2]
  congr 1
  apply markRange_markRange
  obtain ⟨hlt, hle, _⟩ := release_index_bounds c p size h0 hlo hhi hal
  omega

theorem release_idempotent_witness :
    (lj_alloc_from_static_pool cfg1 65536 0 true [0, 0, 0, 0] = .ok 65536 [1, 0, 0, 0] ∧
        ([1, 1, 0, 0] : List Nat).length = maxEntries cfg1) ∧
      ∃ m2, lj_release_to_static_pool cfg1 65536 65536 [1, 1, 0, 0] = .ok m2 ∧
        lj_release_to_static_pool cfg1 65536 65536 m2 = .ok m2 :=
  ⟨⟨by decide, by decide⟩,
    release_idempotent cfg1 65536 0 [0, 0, 0, 0] 65536 [1, 0, 0, 0] [1, 1, 0, 0]
      (by decide) (by decide)⟩

/-- C2: starting from the zero-initialized map, any interleaving of
acquires and releases in which every successful acquire is eventually
released with exactly its granted address and size (an empty outstanding
list at the end) returns the occupancy map to the all-free initial state. -/
theorem roundtrip_map_all_free (c : PoolCfg) (m : List Nat)
    (h : Reaches c m []) : m = List.replicate (maxEntries c) 0 := by
  obtain ⟨hlen, _, _, hmap⟩ := reaches_inv h
  apply eq_replicate_zero m _ hlen
  intro i hi
  by_contra hne
  obtain ⟨e, he, _⟩ := (hmap i hi).1 hne
  exact List.not_mem_nil e he

theorem roundtrip_map_all_free_witness :
    Reaches cfg1 [0, 0, 0, 0] [] ∧
      [0, 0, 0, 0] = List.replicate (maxEntries cfg1) 0 := by
  have h1 : lj_alloc_from_static_pool cfg1 65536 0 true
      (List.replicate (maxEntries cfg1) 0) = .ok 65536 [1, 0, 0, 0] := by decide
  have h2 : lj_release_to_static_pool cfg1 65536 65536 [1, 0, 0, 0] =
      .ok [0, 0, 0, 0] := by decide
  have hr : Reaches cfg1 [0, 0, 0, 0] [] := by
    have ha := Reaches.acqOk (c := cfg1) 0 Reaches.init h1
    have hb := Reaches.rel ha (by simp) h2
    simpa using hb
  exact ⟨hr, roundtrip_map_all_free cfg1 [0, 0, 0, 0] hr⟩

end StaticPool
